import Mathlib

/-!
Verification of the pynini rule-cascade engine (pynini/lib/rule_cascade.py).

The cascade orchestrates three layers:
  * rule resolution from a FAR archive (set_rules),
  * lattice construction by sequential composition (_rewrite_lattice),
  * string extraction policies delegated to the rewrite library
    (matches, rewrites, top_rewrites, top_rewrite, one_top_rewrite,
    optimal_rewrites).

The underlying weighted-automaton operations (composition, intersection,
arc sorting, determinization, shortest paths) and the rewrite-library
extraction helpers are not part of the provided source; they are modelled
semantically from the specification.  A weighted automaton over the
tropical semiring with the path property is represented extensionally by
the finite weighted language it accepts: a list of (string, weight) pairs,
strings being label sequences.  A weighted relation (a rule) is a list of
arcs (input string, output string, weight).
-/

/-- A string is a sequence of labels. -/
abbrev Str : Type := List Nat

/-- An arc of a weighted relation: input string, output string, weight
(tropical semiring: weights add along a path, lower is better). -/
abbrev Arc : Type := Str × Str × Nat

/-- A rule is a weighted relation between input and output strings. -/
abbrev Rule : Type := List Arc

/-- A lattice (acceptor automaton) is the weighted language it accepts. -/
abbrev Fst : Type := List (Str × Nat)

/-- Modelled from the spec: a value that is either a raw string or an
already-built automaton (pynini.FstLike). -/
abbrev FstLike : Type := Str ⊕ Fst

deriving instance DecidableEq for Except

/-- Modelled from the spec: the FAR archive, mapping rule names to the
stored relations (pynini.Far with find and get_fst). -/
abbrev Far : Type := List (String × Rule)

/-- Modelled from the spec: membership test of a rule name in the archive
(far.find). -/
def farFind (f : Far) (name : String) : Bool :=
  (List.lookup name f).isSome

/-- Modelled from the spec: retrieval of the relation stored under a name
found in the archive (far.get_fst after a successful find). -/
def farGet (f : Far) (name : String) : Rule :=
  (List.lookup name f).getD []

/-- Boolean lexicographic order on label sequences, used to model
arc sorting on input labels. -/
def strLEb : Str → Str → Bool
  | [], _ => true
  | _ :: _, [] => false
  | a :: as, b :: bs =>
      if a < b then true else if b < a then false else strLEb as bs

/-- Order on arcs by input label (ilabel). -/
def arcLE (x y : Arc) : Prop := strLEb x.1 y.1 = true

instance : DecidableRel arcLE := fun x y => by
  unfold arcLE
  infer_instance

/-- Totality of the lexicographic order, needed for sorting. -/
def strLEb_total (x y : Str) : strLEb x y = true ∨ strLEb y x = true := by
  induction x generalizing y with
  | nil => left; rfl
  | cons a as ih =>
      cases y with
      | nil => right; rfl
      | cons b bs =>
          rcases Nat.lt_trichotomy a b with h | h | h
          · left; simp [strLEb, h]
          · subst h
            rcases ih bs with h' | h'
            · left; simp [strLEb, h']
            · right; simp [strLEb, h']
          · right; simp [strLEb, h]

/-- Transitivity of the lexicographic order, needed for sorting. -/
def strLEb_trans (x y z : Str) (hxy : strLEb x y = true)
    (hyz : strLEb y z = true) : strLEb x z = true := by
  induction x generalizing y z with
  | nil => rfl
  | cons a as ih =>
      cases y with
      | nil => simp [strLEb] at hxy
      | cons b bs =>
          cases z with
          | nil => simp [strLEb] at hyz
          | cons c cs =>
              simp only [strLEb] at hxy hyz ⊢
              by_cases hab : a < b
              · by_cases hbc : b < c
                · simp [Nat.lt_trans hab hbc]
                · by_cases hcb : c < b
                  · simp at hyz; omega
                  · have : b = c := by omega
                    subst this
                    simp [hab]
              · by_cases hba : b < a
                · simp [hab, hba] at hxy
                · have hab' : a = b := by omega
                  subst hab'
                  by_cases hbc : a < c
                  · simp [hbc]
                  · by_cases hcb : c < a
                    · simp [hbc, hcb] at hyz
                    · have : a = c := by omega
                      subst this
                      simp [hab] at hxy hyz ⊢
                      exact ih _ _ hxy hyz

instance : IsTotal Arc arcLE :=
  ⟨fun x y => strLEb_total x.1 y.1⟩

instance : IsTrans Arc arcLE :=
  ⟨fun x y z => strLEb_trans x.1 y.1 z.1⟩

/-- Modelled from the spec: arc-sorting a relation on input labels
(fst.arcsort with ilabel sort type). -/
def arcsort (r : Rule) : Rule := List.insertionSort arcLE r

/-- The rule cascade: the archive handle and the active rule list. -/
structure RuleCascade where
  far : Far
  rules : List Rule
deriving DecidableEq

/-- The loop body of set_rules: starting from the already-appended rules,
resolve each name in order, appending the arc-sorted relation, and stop
with an error message at the first name not found. -/
def setRulesLoop (f : Far) (acc : List Rule) : List String → List Rule × Option String
  | [] => (acc, none)
  | n :: ns =>
      if farFind f n then
        setRulesLoop f (acc ++ [arcsort (farGet f n)]) ns
      else
        (acc, some ("Cannot find rule: " ++ n))

/-- set_rules: clears the active rule list, then resolves each name in
order, appending the arc-sorted relation; raises on the first name not
found, leaving the prefix of resolved rules in place.  The returned pair
is the cascade state after the call together with the raised error, if
any. -/
def set_rules (c : RuleCascade) (names : List String) : RuleCascade × Option String :=
  let r := setRulesLoop c.far [] names
  (⟨c.far, r.1⟩, r.2)

/-- Coercion of a raw string to a one-string acceptor of weight zero
(pynini.accep). -/
def accep (s : Str) : Fst := [(s, 0)]

/-- Coercion of an FstLike to an automaton: a raw string becomes its
acceptor, an automaton is returned unchanged. -/
def coerceToFst : FstLike → Fst
  | Sum.inl s => accep s
  | Sum.inr f => f

/-- Modelled from the spec: weighted composition of an acceptor with a
relation (pynini.compose): every accepted string continues along every
arc whose input label sequence matches it, weights adding. -/
def composeRule (f : Fst) (r : Rule) : Fst :=
  f.flatMap fun p =>
    (r.filter fun a => decide (a.1 = p.1)).map fun a => (a.2.1, p.2 + a.2.2)

/-- Modelled from the spec: one step of the lattice builder
(rewrite.rewrite_lattice): composes the input, a raw string or an
automaton, with one rule. -/
def rewrite_lattice (lat : FstLike) (r : Rule) : Fst :=
  composeRule (coerceToFst lat) r

/-- The for-loop of _rewrite_lattice: the running lattice starts as the
input FstLike and each iteration replaces it by its composition with the
next rule (always an automaton afterwards). -/
def latticeLoop (lat : FstLike) : List Rule → FstLike
  | [] => lat
  | r :: rs => latticeLoop (Sum.inr (rewrite_lattice lat r)) rs

/-- _rewrite_lattice: raises when no rules are configured; otherwise
folds composition over the rules in list order and coerces the final
value to an acceptor automaton when it is not one already. -/
def _rewrite_lattice (c : RuleCascade) (s : FstLike) : Except String Fst :=
  if c.rules = [] then Except.error "No rules requested"
  else Except.ok (coerceToFst (latticeLoop s c.rules))

/-- Minimum of a list of weights, when the list is non-empty. -/
def minW : List Nat → Option Nat
  | [] => none
  | w :: ws =>
      some (match minW ws with
            | none => w
            | some m => Nat.min w m)

/-- The minimal weight appearing in a lattice (0 for the empty lattice,
where it is never used). -/
def latMin (f : Fst) : Nat := (minW (f.map (·.2))).getD 0

/-- The weight a lattice assigns to a string: the minimal weight among
its accepting paths for that string. -/
def minWeightFor (f : Fst) (s : Str) : Nat :=
  (minW ((f.filter fun p => decide (p.1 = s)).map (·.2))).getD 0

/-- The distinct output strings of a lattice. -/
def stringsOf (f : Fst) : List Str := (f.map (·.1)).dedup

/-- Modelled from the spec: weighted determinization over a path-property
semiring merges all paths for the same output string, keeping the minimal
weight per string. -/
def determinize (f : Fst) : Fst :=
  (stringsOf f).map fun s => (s, minWeightFor f s)

/-- Modelled from the spec: rewrite.lattice_to_dfa determinizes the
lattice; with optimal_only it additionally keeps only the strings tied at
the optimal (lowest) weight.  The state multiplier only bounds a
non-fatal degradation warning and has no effect on the returned value. -/
def lattice_to_dfa (f : Fst) (optimal_only : Bool) (state_multiplier : Nat) : Fst :=
  let d := determinize f
  if optimal_only then d.filter fun p => decide (p.2 = latMin d) else d

/-- Modelled from the spec: rewrite.lattice_to_strings enumerates the
accepted strings of a lattice. -/
def lattice_to_strings (f : Fst) : List Str := f.map (·.1)

/-- Order on weighted strings by weight, used by shortest-path search. -/
def byWeight (p q : Str × Nat) : Prop := p.2 ≤ q.2

instance : DecidableRel byWeight := fun p q => by
  unfold byWeight
  infer_instance

instance : IsTotal (Str × Nat) byWeight :=
  ⟨fun p q => Nat.le_total p.2 q.2⟩

instance : IsTrans (Str × Nat) byWeight :=
  ⟨fun _ _ _ => Nat.le_trans⟩

/-- Modelled from the spec: rewrite.lattice_to_nshortest extracts the n
lowest-weight paths, in non-decreasing weight order, ties broken in a
stable implementation-defined order. -/
def lattice_to_nshortest (f : Fst) (nshortest : Nat) : Fst :=
  (List.insertionSort byWeight f).take nshortest

/-- Modelled from the spec: rewrite.lattice_to_top_string extracts the
single best path of the lattice and converts it to a string, with no tie
handling; it fails on an empty lattice. -/
def lattice_to_top_string (f : Fst) : Except String Str :=
  match lattice_to_nshortest f 1 with
  | [] => Except.error "Empty lattice"
  | p :: _ => Except.ok p.1

/-- Modelled from the spec: rewrite.lattice_to_one_top_string, applied to
a lattice already restricted to the optimal-weight strings, succeeds only
when exactly one distinct best-weight output string exists, and signals
the ambiguity when two or more remain. -/
def lattice_to_one_top_string (f : Fst) : Except String Str :=
  match f with
  | [] => Except.error "Empty lattice"
  | [p] => Except.ok p.1
  | _ :: _ :: _ => Except.error "Multiple top rewrites found"

/-- Modelled from the spec: pynini.intersect under the sequential
composition filter: keeps the weighted strings accepted by both
operands, weights adding. -/
def intersect (f : Fst) (o : FstLike) : Fst :=
  f.flatMap fun p =>
    ((coerceToFst o).filter fun q => decide (q.1 = p.1)).map fun q => (p.1, p.2 + q.2)

/-- matches: builds the lattice, intersects it with the output acceptor,
and reports whether the result has a reachable start state, which in the
extensional model is non-emptiness of the accepted language. -/
def «matches» (c : RuleCascade) (istring : FstLike) (ostring : FstLike) :
    Except String Bool := do
  let lattice ← _rewrite_lattice c istring
  pure (decide (intersect lattice ostring ≠ []))

/-- rewrites: builds the lattice, determinizes it keeping all distinct
strings, and enumerates them. -/
def rewrites (c : RuleCascade) (string : FstLike) (state_multiplier : Nat) :
    Except String (List Str) := do
  let lattice ← _rewrite_lattice c string
  pure (lattice_to_strings (lattice_to_dfa lattice false state_multiplier))

/-- top_rewrites: builds the lattice and extracts the n best paths as
strings. -/
def top_rewrites (c : RuleCascade) (string : FstLike) (nshortest : Nat) :
    Except String (List Str) := do
  let lattice ← _rewrite_lattice c string
  pure (lattice_to_strings (lattice_to_nshortest lattice nshortest))

/-- top_rewrite: builds the lattice and extracts the single best path as
a string. -/
def top_rewrite (c : RuleCascade) (string : FstLike) : Except String Str := do
  let lattice ← _rewrite_lattice c string
  lattice_to_top_string lattice

/-- one_top_rewrite: builds the lattice, determinizes keeping only the
optimal-weight strings, and succeeds only when a single one remains. -/
def one_top_rewrite (c : RuleCascade) (string : FstLike)
    (state_multiplier : Nat) : Except String Str := do
  let lattice ← _rewrite_lattice c string
  lattice_to_one_top_string (lattice_to_dfa lattice true state_multiplier)

/-- optimal_rewrites: builds the lattice, determinizes keeping only the
optimal-weight strings, and enumerates them. -/
def optimal_rewrites (c : RuleCascade) (string : FstLike)
    (state_multiplier : Nat) : Except String (List Str) := do
  let lattice ← _rewrite_lattice c string
  pure (lattice_to_strings (lattice_to_dfa lattice true state_multiplier))

example :
    set_rules ⟨[("r", [([1], [2], 0)])], []⟩ ["r"] =
      (⟨[("r", [([1], [2], 0)])], [[([1], [2], 0)]]⟩, none) := by decide

example :
    _rewrite_lattice ⟨[], [[([1], [2], 3)]]⟩ (Sum.inl [1]) =
      Except.ok [([2], 3)] := by decide

example :
    rewrites ⟨[], [[([1], [2], 3), ([1], [4], 1)]]⟩ (Sum.inl [1]) 4 =
      Except.ok [[2], [4]] := by decide

example :
    one_top_rewrite ⟨[], [[([1], [2], 3), ([1], [4], 1)]]⟩ (Sum.inl [1]) 4 =
      Except.ok [4] := by decide

example :
    one_top_rewrite ⟨[], [[([1], [2], 1), ([1], [4], 1)]]⟩ (Sum.inl [1]) 4 =
      Except.error "Multiple top rewrites found" := by decide

example :
    «matches» ⟨[], [[([1], [2], 3), ([1], [4], 1)]]⟩ (Sum.inl [1]) (Sum.inl [2]) =
      Except.ok true := by decide

example :
    top_rewrite ⟨[], [[([1], [2], 3), ([1], [4], 1)]]⟩ (Sum.inl [1]) =
      Except.ok [4] := by decide

/-- A string whose lattice weight is minimal among all output strings of
the lattice. -/
def IsMinStr (f : Fst) (s : Str) : Prop :=
  ∀ t ∈ stringsOf f, minWeightFor f s ≤ minWeightFor f t

/-- Two or more distinct output strings share the globally minimal weight
in the lattice: the genuine-ambiguity condition of the spec. -/
def TwoTied (f : Fst) : Prop :=
  ∃ s t : Str, s ≠ t ∧ s ∈ stringsOf f ∧ t ∈ stringsOf f ∧
    IsMinStr f s ∧ IsMinStr f t

/-!
### Helper lemmas about the embedding
-/

theorem latticeLoop_eq_foldl (rs : List Rule) (lat : FstLike) :
    latticeLoop lat rs =
      rs.foldl (fun l r => Sum.inr (rewrite_lattice l r)) lat := by
  induction rs generalizing lat with
  | nil => rfl
  | cons r rs ih => simp only [latticeLoop, List.foldl, ih]

theorem setRulesLoop_found (f : Far) (pre : List String)
    (hpre : ∀ n ∈ pre, farFind f n = true) (acc : List Rule) (rest : List String) :
    setRulesLoop f acc (pre ++ rest) =
      setRulesLoop f (acc ++ pre.map fun n => arcsort (farGet f n)) rest := by
  induction pre generalizing acc with
  | nil => simp
  | cons n ns ih =>
      have hn : farFind f n = true := hpre n (List.mem_cons_self _ _)
      have step : setRulesLoop f acc ((n :: ns) ++ rest) =
          setRulesLoop f (acc ++ [arcsort (farGet f n)]) (ns ++ rest) := by
        simp [setRulesLoop, hn]
      rw [step,
        ih (fun m hm => hpre m (List.mem_cons_of_mem _ hm)) (acc ++ [arcsort (farGet f n)])]
      simp

theorem minW_eq_none (l : List Nat) : minW l = none ↔ l = [] := by
  cases l <;> simp [minW]

theorem minW_spec (l : List Nat) (m : Nat) (h : minW l = some m) :
    m ∈ l ∧ ∀ x ∈ l, m ≤ x := by
  induction l generalizing m with
  | nil => simp [minW] at h
  | cons w ws ih =>
      rw [minW] at h
      cases hws : minW ws with
      | none =>
          rw [hws] at h
          have hmw : m = w := by simpa using h.symm
          have hwsnil : ws = [] := (minW_eq_none ws).mp hws
          subst hmw; subst hwsnil
          simp
      | some mw =>
          rw [hws] at h
          have hmw : m = Nat.min w mw := by simpa using h.symm
          obtain ⟨hmem, hle⟩ := ih mw hws
          subst hmw
          constructor
          · rcases Nat.le_total w mw with hc | hc
            · simp [Nat.min_eq_left hc]
            · simp only [Nat.min_eq_right hc]
              exact List.mem_cons_of_mem _ hmem
          · intro x hx
            rcases List.mem_cons.mp hx with rfl | hx
            · exact Nat.min_le_left _ _
            · exact Nat.le_trans (Nat.min_le_right _ _) (hle x hx)

theorem minW_some (l : List Nat) (h : l ≠ []) : ∃ m, minW l = some m := by
  cases hl : minW l with
  | none => exact absurd ((minW_eq_none l).mp hl) h
  | some m => exact ⟨m, rfl⟩

theorem minW_getD_le (l : List Nat) (x : Nat) (hx : x ∈ l) :
    (minW l).getD 0 ≤ x := by
  have hne : l ≠ [] := by rintro rfl; simp at hx
  obtain ⟨m, hm⟩ := minW_some l hne
  rw [hm]
  exact (minW_spec l m hm).2 x hx

theorem minW_getD_mem (l : List Nat) (h : l ≠ []) : (minW l).getD 0 ∈ l := by
  obtain ⟨m, hm⟩ := minW_some l h
  rw [hm]
  exact (minW_spec l m hm).1

theorem mem_stringsOf (f : Fst) (s : Str) : s ∈ stringsOf f ↔ ∃ w, (s, w) ∈ f := by
  unfold stringsOf
  rw [List.mem_dedup, List.mem_map]
  constructor
  · rintro ⟨p, hp, rfl⟩
    exact ⟨p.2, hp⟩
  · rintro ⟨w, hw⟩
    exact ⟨(s, w), hw, rfl⟩

theorem stringsOf_ne_nil (f : Fst) (h : f ≠ []) : stringsOf f ≠ [] := by
  obtain ⟨p, hp⟩ : ∃ p, p ∈ f := by
    cases f with
    | nil => exact absurd rfl h
    | cons p t => exact ⟨p, List.mem_cons_self _ _⟩
  have : p.1 ∈ stringsOf f := (mem_stringsOf f p.1).mpr ⟨p.2, hp⟩
  rintro hnil
  rw [hnil] at this
  simp at this

theorem latMin_le (f : Fst) (p : Str × Nat) (hp : p ∈ f) : latMin f ≤ p.2 :=
  minW_getD_le _ _ (List.mem_map_of_mem _ hp)

theorem latMin_attained (f : Fst) (hf : f ≠ []) : ∃ p ∈ f, p.2 = latMin f := by
  have hne : f.map (·.2) ≠ [] := by
    simpa using hf
  have hmem := minW_getD_mem _ hne
  obtain ⟨p, hp, hp2⟩ := List.mem_map.mp hmem
  exact ⟨p, hp, hp2⟩

theorem minWeightFor_le (f : Fst) (s : Str) (w : Nat) (h : (s, w) ∈ f) :
    minWeightFor f s ≤ w := by
  have hmem : ((s, w) : Str × Nat) ∈ f.filter fun p => decide (p.1 = s) := by
    rw [List.mem_filter]
    exact ⟨h, by simp⟩
  exact minW_getD_le _ _ (List.mem_map_of_mem _ hmem)

theorem minWeightFor_mem (f : Fst) (s : Str) (h : s ∈ stringsOf f) :
    (s, minWeightFor f s) ∈ f := by
  obtain ⟨w, hw⟩ := (mem_stringsOf f s).mp h
  have hmem : ((s, w) : Str × Nat) ∈ f.filter fun p => decide (p.1 = s) := by
    rw [List.mem_filter]
    exact ⟨hw, by simp⟩
  have hne : (f.filter fun p => decide (p.1 = s)).map (·.2) ≠ [] := by
    cases hfil : f.filter fun p => decide (p.1 = s) with
    | nil => rw [hfil] at hmem; simp at hmem
    | cons q t => simp
  have hmm := minW_getD_mem _ hne
  obtain ⟨q, hq, hq2⟩ := List.mem_map.mp hmm
  have hq1 : q.1 = s := by
    have := (List.mem_filter.mp hq).2
    simpa using this
  have hqf : q ∈ f := (List.mem_filter.mp hq).1
  have : q = (s, minWeightFor f s) := by
    obtain ⟨q1, q2⟩ := q
    simp only at hq1 hq2
    rw [hq1, hq2]
    rfl
  rw [this] at hqf
  exact hqf

theorem determinize_map_fst (f : Fst) :
    (determinize f).map (·.1) = stringsOf f := by
  unfold determinize
  rw [List.map_map]
  simp [Function.comp_def]

theorem mem_determinize (f : Fst) (p : Str × Nat) :
    p ∈ determinize f ↔ p.1 ∈ stringsOf f ∧ p.2 = minWeightFor f p.1 := by
  unfold determinize
  rw [List.mem_map]
  constructor
  · rintro ⟨s, hs, rfl⟩
    exact ⟨hs, rfl⟩
  · rintro ⟨h1, h2⟩
    refine ⟨p.1, h1, ?_⟩
    obtain ⟨p1, p2⟩ := p
    simp only at h2
    rw [h2]

theorem nodup_determinize_fst (f : Fst) : ((determinize f).map (·.1)).Nodup := by
  rw [determinize_map_fst]
  exact List.nodup_dedup _

theorem determinize_ne_nil (f : Fst) (h : f ≠ []) : determinize f ≠ [] := by
  unfold determinize
  have := stringsOf_ne_nil f h
  simpa using this

theorem mem_dfa_true (f : Fst) (sm : Nat) (p : Str × Nat) :
    p ∈ lattice_to_dfa f true sm ↔
      p ∈ determinize f ∧ p.2 = latMin (determinize f) := by
  unfold lattice_to_dfa
  simp [List.mem_filter]

theorem minWeightFor_eq_latMin_iff (f : Fst) (s : Str) (hs : s ∈ stringsOf f) :
    minWeightFor f s = latMin (determinize f) ↔ IsMinStr f s := by
  constructor
  · intro heq t ht
    have hmem : ((t, minWeightFor f t) : Str × Nat) ∈ determinize f :=
      (mem_determinize f (t, minWeightFor f t)).mpr ⟨ht, rfl⟩
    have := latMin_le (determinize f) _ hmem
    rw [heq]
    exact this
  · intro hmin
    obtain ⟨w, hw⟩ := (mem_stringsOf f s).mp hs
    have hfne : f ≠ [] := List.ne_nil_of_mem hw
    obtain ⟨q, hq, hq2⟩ := latMin_attained (determinize f) (determinize_ne_nil f hfne)
    obtain ⟨hq1, hqw⟩ := (mem_determinize f q).mp hq
    have h1 : minWeightFor f s ≤ latMin (determinize f) := by
      rw [← hq2, hqw]
      exact hmin q.1 hq1
    have h2 : latMin (determinize f) ≤ minWeightFor f s :=
      latMin_le _ _ ((mem_determinize f (s, minWeightFor f s)).mpr ⟨hs, rfl⟩)
    omega

theorem mem_opt_strings (f : Fst) (sm : Nat) (s : Str) :
    s ∈ lattice_to_strings (lattice_to_dfa f true sm) ↔
      s ∈ stringsOf f ∧ IsMinStr f s := by
  unfold lattice_to_strings
  rw [List.mem_map]
  constructor
  · rintro ⟨p, hp, rfl⟩
    obtain ⟨hpd, hpw⟩ := (mem_dfa_true f sm p).mp hp
    obtain ⟨h1, h2⟩ := (mem_determinize f p).mp hpd
    exact ⟨h1, (minWeightFor_eq_latMin_iff f p.1 h1).mp (by rw [← h2, hpw])⟩
  · rintro ⟨h1, h2⟩
    refine ⟨(s, minWeightFor f s), ?_, rfl⟩
    rw [mem_dfa_true]
    exact ⟨(mem_determinize f _).mpr ⟨h1, rfl⟩,
      (minWeightFor_eq_latMin_iff f s h1).mpr h2⟩

theorem rewrites_strings (f : Fst) (sm : Nat) :
    lattice_to_strings (lattice_to_dfa f false sm) = stringsOf f := by
  unfold lattice_to_dfa lattice_to_strings
  simp [determinize_map_fst]

theorem dfa_true_ne_nil (f : Fst) (sm : Nat) (hf : f ≠ []) :
    lattice_to_dfa f true sm ≠ [] := by
  obtain ⟨q, hq, hq2⟩ := latMin_attained (determinize f) (determinize_ne_nil f hf)
  have : q ∈ lattice_to_dfa f true sm := (mem_dfa_true f sm q).mpr ⟨hq, hq2⟩
  exact List.ne_nil_of_mem this

theorem nodup_dfa_true_fst (f : Fst) (sm : Nat) :
    ((lattice_to_dfa f true sm).map (·.1)).Nodup := by
  have hsub : (lattice_to_dfa f true sm).Sublist (determinize f) := by
    unfold lattice_to_dfa
    simp only [if_pos]
    exact List.filter_sublist _
  exact List.Nodup.sublist (hsub.map _) (nodup_determinize_fst f)

theorem one_top_amb_iff (f : Fst) (sm : Nat) :
    lattice_to_one_top_string (lattice_to_dfa f true sm) =
        Except.error "Multiple top rewrites found" ↔ TwoTied f := by
  constructor
  · intro herr
    cases hdT : lattice_to_dfa f true sm with
    | nil => rw [hdT] at herr; simp [lattice_to_one_top_string] at herr
    | cons p rest =>
        cases rest with
        | nil => rw [hdT] at herr; simp [lattice_to_one_top_string] at herr
        | cons q t' =>
            have hp : p ∈ lattice_to_dfa f true sm := by
              rw [hdT]; exact List.mem_cons_self _ _
            have hq : q ∈ lattice_to_dfa f true sm := by
              rw [hdT]; exact List.mem_cons_of_mem _ (List.mem_cons_self _ _)
            have hnodup := nodup_dfa_true_fst f sm
            rw [hdT, List.map_cons, List.map_cons, List.nodup_cons] at hnodup
            have hne : p.1 ≠ q.1 := by
              intro h
              exact hnodup.1 (by rw [h]; exact List.mem_cons_self _ _)
            obtain ⟨hpd, hpw⟩ := (mem_dfa_true f sm p).mp hp
            obtain ⟨hp1, hp2⟩ := (mem_determinize f p).mp hpd
            obtain ⟨hqd, hqw⟩ := (mem_dfa_true f sm q).mp hq
            obtain ⟨hq1, hq2⟩ := (mem_determinize f q).mp hqd
            exact ⟨p.1, q.1, hne, hp1, hq1,
              (minWeightFor_eq_latMin_iff f p.1 hp1).mp (by rw [← hp2, hpw]),
              (minWeightFor_eq_latMin_iff f q.1 hq1).mp (by rw [← hq2, hqw])⟩
  · rintro ⟨s, t, hst, hs, ht, hms, hmt⟩
    have hsd : ((s, minWeightFor f s) : Str × Nat) ∈ lattice_to_dfa f true sm :=
      (mem_dfa_true f sm _).mpr ⟨(mem_determinize f _).mpr ⟨hs, rfl⟩,
        (minWeightFor_eq_latMin_iff f s hs).mpr hms⟩
    have htd : ((t, minWeightFor f t) : Str × Nat) ∈ lattice_to_dfa f true sm :=
      (mem_dfa_true f sm _).mpr ⟨(mem_determinize f _).mpr ⟨ht, rfl⟩,
        (minWeightFor_eq_latMin_iff f t ht).mpr hmt⟩
    cases hdT : lattice_to_dfa f true sm with
    | nil => rw [hdT] at hsd; simp at hsd
    | cons p rest =>
        cases rest with
        | nil =>
            rw [hdT] at hsd htd
            have h1 := List.mem_singleton.mp hsd
            have h2 := List.mem_singleton.mp htd
            have : s = t := by
              have e1 := congrArg Prod.fst h1
              have e2 := congrArg Prod.fst h2
              simp only at e1 e2
              rw [e1, e2]
            exact absurd this hst
        | cons q t' =>
            rfl

theorem dfa_true_singleton (f : Fst) (sm : Nat) (hf : f ≠ []) (hnt : ¬ TwoTied f) :
    ∃ p, lattice_to_dfa f true sm = [p] := by
  cases hdT : lattice_to_dfa f true sm with
  | nil => exact absurd hdT (dfa_true_ne_nil f sm hf)
  | cons p rest =>
      cases rest with
      | nil => exact ⟨p, rfl⟩
      | cons q t' =>
          exact absurd ((one_top_amb_iff f sm).mp (by rw [hdT]; rfl)) hnt

theorem nshortest_one (f : Fst) (hf : f ≠ []) :
    ∃ p, lattice_to_nshortest f 1 = [p] ∧ p ∈ f ∧ ∀ q ∈ f, p.2 ≤ q.2 := by
  have hperm := List.perm_insertionSort byWeight f
  have hsorted := List.sorted_insertionSort byWeight f
  cases hs : List.insertionSort byWeight f with
  | nil =>
      rw [hs] at hperm
      exact absurd hperm.symm.eq_nil hf
  | cons p t =>
      refine ⟨p, ?_, ?_, ?_⟩
      · unfold lattice_to_nshortest
        rw [hs]
        rfl
      · have : p ∈ List.insertionSort byWeight f := by
          rw [hs]; exact List.mem_cons_self _ _
        exact hperm.subset this
      · intro q hq
        have hq' : q ∈ List.insertionSort byWeight f := hperm.mem_iff.mpr hq
        rw [hs] at hq'
        rcases List.mem_cons.mp hq' with rfl | hq''
        · exact Nat.le_refl _
        · rw [hs, List.sorted_cons] at hsorted
          exact hsorted.1 q hq''

theorem top_string_of_ne_nil (f : Fst) (hf : f ≠ []) :
    ∃ p, lattice_to_top_string f = Except.ok p.1 ∧ p ∈ f ∧ ∀ q ∈ f, p.2 ≤ q.2 := by
  obtain ⟨p, h1, h2, h3⟩ := nshortest_one f hf
  refine ⟨p, ?_, h2, h3⟩
  unfold lattice_to_top_string
  rw [h1]

theorem top_eq_of_singleton (f : Fst) (sm : Nat) (p : Str × Nat)
    (hdT : lattice_to_dfa f true sm = [p]) (hf : f ≠ []) :
    lattice_to_top_string f = Except.ok p.1 := by
  obtain ⟨h, hok, hmem, hmin⟩ := top_string_of_ne_nil f hf
  rw [hok]
  congr 1
  have hh1 : h.1 ∈ stringsOf f :=
    (mem_stringsOf f h.1).mpr ⟨h.2, by rw [Prod.mk.eta]; exact hmem⟩
  have ha : minWeightFor f h.1 ≤ h.2 :=
    minWeightFor_le f h.1 h.2 (by rw [Prod.mk.eta]; exact hmem)
  obtain ⟨q, hq, hq2⟩ := latMin_attained (determinize f) (determinize_ne_nil f hf)
  obtain ⟨hq1, hqw⟩ := (mem_determinize f q).mp hq
  have hb : h.2 ≤ latMin (determinize f) := by
    rw [← hq2, hqw]
    exact hmin _ (minWeightFor_mem f q.1 hq1)
  have hc : latMin (determinize f) ≤ minWeightFor f h.1 :=
    latMin_le _ _ ((mem_determinize f (h.1, minWeightFor f h.1)).mpr ⟨hh1, rfl⟩)
  have heq : minWeightFor f h.1 = latMin (determinize f) := by omega
  have hmemdT : ((h.1, minWeightFor f h.1) : Str × Nat) ∈ lattice_to_dfa f true sm :=
    (mem_dfa_true f sm _).mpr ⟨(mem_determinize f _).mpr ⟨hh1, rfl⟩, heq⟩
  rw [hdT] at hmemdT
  have hx : ((h.1, minWeightFor f h.1) : Str × Nat) = p :=
    List.mem_singleton.mp hmemdT
  have he := congrArg Prod.fst hx
  exact he

theorem mem_intersect (f : Fst) (o : FstLike) (x : Str × Nat) :
    x ∈ intersect f o ↔
      ∃ p ∈ f, ∃ q ∈ coerceToFst o, q.1 = p.1 ∧ x = (p.1, p.2 + q.2) := by
  unfold intersect
  rw [List.mem_flatMap]
  constructor
  · rintro ⟨p, hp, hx⟩
    rw [List.mem_map] at hx
    obtain ⟨q, hq, rfl⟩ := hx
    rw [List.mem_filter] at hq
    exact ⟨p, hp, q, hq.1, by simpa using hq.2, rfl⟩
  · rintro ⟨p, hp, q, hq, hq1, rfl⟩
    refine ⟨p, hp, ?_⟩
    rw [List.mem_map]
    exact ⟨q, List.mem_filter.mpr ⟨hq, by simpa using hq1⟩, rfl⟩

theorem intersect_ne_nil_iff (f : Fst) (o : FstLike) :
    intersect f o ≠ [] ↔ ∃ s w w', (s, w) ∈ f ∧ (s, w') ∈ coerceToFst o := by
  constructor
  · intro hne
    obtain ⟨x, hx⟩ : ∃ x, x ∈ intersect f o := by
      cases hi : intersect f o with
      | nil => exact absurd hi hne
      | cons a t => exact ⟨a, List.mem_cons_self _ _⟩
    obtain ⟨p, hp, q, hq, hq1, rfl⟩ := (mem_intersect f o x).mp hx
    refine ⟨p.1, p.2, q.2, ?_, ?_⟩
    · rw [Prod.mk.eta]
      exact hp
    · rw [← hq1, Prod.mk.eta]
      exact hq
  · rintro ⟨s, w, w', hw, hw'⟩
    have : ((s, w + w') : Str × Nat) ∈ intersect f o :=
      (mem_intersect f o _).mpr ⟨(s, w), hw, (s, w'), hw', rfl, rfl⟩
    exact List.ne_nil_of_mem this

theorem matches_ok (c : RuleCascade) (i o : FstLike) (h : c.rules ≠ []) :
    «matches» c i o =
      Except.ok (decide (intersect (coerceToFst (latticeLoop i c.rules)) o ≠ [])) := by
  unfold «matches» _rewrite_lattice
  rw [if_neg h]
  rfl

theorem rewrites_ok (c : RuleCascade) (i : FstLike) (sm : Nat) (h : c.rules ≠ []) :
    rewrites c i sm =
      Except.ok (lattice_to_strings
        (lattice_to_dfa (coerceToFst (latticeLoop i c.rules)) false sm)) := by
  unfold rewrites _rewrite_lattice
  rw [if_neg h]
  rfl

theorem top_rewrites_ok (c : RuleCascade) (i : FstLike) (n : Nat) (h : c.rules ≠ []) :
    top_rewrites c i n =
      Except.ok (lattice_to_strings
        (lattice_to_nshortest (coerceToFst (latticeLoop i c.rules)) n)) := by
  unfold top_rewrites _rewrite_lattice
  rw [if_neg h]
  rfl

theorem top_rewrite_ok (c : RuleCascade) (i : FstLike) (h : c.rules ≠ []) :
    top_rewrite c i =
      lattice_to_top_string (coerceToFst (latticeLoop i c.rules)) := by
  unfold top_rewrite _rewrite_lattice
  rw [if_neg h]
  rfl

theorem one_top_ok (c : RuleCascade) (i : FstLike) (sm : Nat) (h : c.rules ≠ []) :
    one_top_rewrite c i sm =
      lattice_to_one_top_string
        (lattice_to_dfa (coerceToFst (latticeLoop i c.rules)) true sm) := by
  unfold one_top_rewrite _rewrite_lattice
  rw [if_neg h]
  rfl

theorem optimal_ok (c : RuleCascade) (i : FstLike) (sm : Nat) (h : c.rules ≠ []) :
    optimal_rewrites c i sm =
      Except.ok (lattice_to_strings
        (lattice_to_dfa (coerceToFst (latticeLoop i c.rules)) true sm)) := by
  unfold optimal_rewrites _rewrite_lattice
  rw [if_neg h]
  rfl

/-!
### Claim theorems
-/

/-- Claim C3: for a name sequence whose first unresolved name is bad, with
every earlier name resolving, set_rules clears the active rule list,
resolves the earlier names one by one in order, and raises the error
naming bad; afterwards the rule list holds exactly the relations for the
resolved prefix (whatever the previous configuration was), and no later
name is resolved or appended. -/
theorem C3_set_rules_first_failure (c : RuleCascade) (pre post : List String)
    (bad : String) (hpre : ∀ n ∈ pre, farFind c.far n = true)
    (hbad : farFind c.far bad = false) :
    set_rules c (pre ++ bad :: post) =
      (⟨c.far, pre.map fun n => arcsort (farGet c.far n)⟩,
        some ("Cannot find rule: " ++ bad)) := by
  have h1 : setRulesLoop c.far [] (pre ++ bad :: post) =
      (pre.map fun n => arcsort (farGet c.far n),
        some ("Cannot find rule: " ++ bad)) := by
    rw [setRulesLoop_found c.far pre hpre [] (bad :: post)]
    simp [setRulesLoop, hbad]
  unfold set_rules
  rw [h1]

/-- Witness for C3: an archive holding only rule a, a cascade previously
configured with some other rule, and the request [a, missing, b]: the
previous list is discarded, a is resolved, the error names missing, and b
is never appended. -/
theorem C3_witness :
    set_rules ⟨[("a", [([1], [2], 0)])], [[([7], [8], 9)]]⟩ ["a", "missing", "b"] =
      (⟨[("a", [([1], [2], 0)])], [[([1], [2], 0)]]⟩,
        some "Cannot find rule: missing") :=
  C3_set_rules_first_failure ⟨[("a", [([1], [2], 0)])], [[([7], [8], 9)]]⟩
    ["a"] ["b"] "missing" (by decide) (by decide)

/-- Claim C4: every rewrite-family operation raises the no-rules error on
a cascade whose active rule list is empty, for every input and parameter,
in particular before and independent of any composition. -/
theorem C4_empty_rules_error (c : RuleCascade) (i o : FstLike) (n sm : Nat)
    (h : c.rules = []) :
    «matches» c i o = Except.error "No rules requested" ∧
    rewrites c i sm = Except.error "No rules requested" ∧
    top_rewrites c i n = Except.error "No rules requested" ∧
    top_rewrite c i = Except.error "No rules requested" ∧
    one_top_rewrite c i sm = Except.error "No rules requested" ∧
    optimal_rewrites c i sm = Except.error "No rules requested" := by
  obtain ⟨fa, rs⟩ := c
  have h' : rs = [] := h
  subst h'
  exact ⟨rfl, rfl, rfl, rfl, rfl, rfl⟩

/-- Witness for C4 at a concrete cascade with an empty rule list. -/
theorem C4_witness :
    «matches» ⟨[], []⟩ (Sum.inl [1]) (Sum.inl [2]) =
      Except.error "No rules requested" ∧
    rewrites ⟨[], []⟩ (Sum.inl [1]) 4 = Except.error "No rules requested" ∧
    top_rewrites ⟨[], []⟩ (Sum.inl [1]) 2 = Except.error "No rules requested" ∧
    top_rewrite ⟨[], []⟩ (Sum.inl [1]) = Except.error "No rules requested" ∧
    one_top_rewrite ⟨[], []⟩ (Sum.inl [1]) 4 = Except.error "No rules requested" ∧
    optimal_rewrites ⟨[], []⟩ (Sum.inl [1]) 4 = Except.error "No rules requested" :=
  C4_empty_rules_error ⟨[], []⟩ (Sum.inl [1]) (Sum.inl [2]) 2 4 rfl

/-- Claim C5: for a non-empty rule list, _rewrite_lattice returns the
left fold of composition over the rules in list order, starting from the
input, the final value coerced to an acceptor automaton when it is not
one already. -/
theorem C5_lattice_fold (c : RuleCascade) (s : FstLike) (h : c.rules ≠ []) :
    _rewrite_lattice c s =
      Except.ok (coerceToFst
        (c.rules.foldl (fun lat r => Sum.inr (rewrite_lattice lat r)) s)) := by
  unfold _rewrite_lattice
  rw [if_neg h, latticeLoop_eq_foldl]

/-- Witness for C5 at a two-rule cascade. -/
theorem C5_witness :
    _rewrite_lattice ⟨[], [[([1], [2], 3)], [([2], [5], 1)]]⟩ (Sum.inl [1]) =
      Except.ok (coerceToFst
        (([[([1], [2], 3)], [([2], [5], 1)]] : List Rule).foldl
          (fun lat r => Sum.inr (rewrite_lattice lat r)) (Sum.inl [1]))) :=
  C5_lattice_fold ⟨[], [[([1], [2], 3)], [([2], [5], 1)]]⟩ (Sum.inl [1]) (by decide)

/-- Claim C9: when every requested name resolves in the archive,
set_rules replaces the active rule list in full: the prior contents are
discarded and the new list holds exactly one relation per name, in the
given order, each arc-sorted on its input labels at resolution time. -/
theorem C9_set_rules_success (c : RuleCascade) (names : List String)
    (h : ∀ n ∈ names, farFind c.far n = true) :
    set_rules c names =
      (⟨c.far, names.map fun n => arcsort (farGet c.far n)⟩, none) ∧
    ∀ r ∈ (set_rules c names).1.rules, List.Sorted arcLE r := by
  have h1 : setRulesLoop c.far [] names =
      (names.map fun n => arcsort (farGet c.far n), none) := by
    have h2 := setRulesLoop_found c.far names h [] []
    rw [List.append_nil] at h2
    rw [h2]
    rfl
  constructor
  · unfold set_rules
    rw [h1]
  · intro r hr
    unfold set_rules at hr
    rw [h1] at hr
    simp only [List.mem_map] at hr
    obtain ⟨n, hn, rfl⟩ := hr
    exact List.sorted_insertionSort arcLE _

/-- Witness for C9: a cascade with stale rules and an archive whose rule
a is stored with arcs out of input-label order; requesting [a, a] yields
exactly two copies of the arc-sorted relation and discards the stale
list. -/
theorem C9_witness :
    set_rules ⟨[("a", [([2], [3], 1), ([1], [2], 0)])], [[([9], [9], 9)]]⟩
        ["a", "a"] =
      (⟨[("a", [([2], [3], 1), ([1], [2], 0)])],
        [[([1], [2], 0), ([2], [3], 1)], [([1], [2], 0), ([2], [3], 1)]]⟩, none) ∧
    ∀ r ∈ (set_rules ⟨[("a", [([2], [3], 1), ([1], [2], 0)])], [[([9], [9], 9)]]⟩
        ["a", "a"]).1.rules, List.Sorted arcLE r :=
  C9_set_rules_success ⟨[("a", [([2], [3], 1), ([1], [2], 0)])], [[([9], [9], 9)]]⟩
    ["a", "a"] (by decide)

/-- Claim C10: set_rules with an empty sequence of names succeeds without
raising and leaves the rule list empty; every rewrite-family operation on
the resulting cascade then fails with the no-rules error: the empty
configuration is accepted at configuration time and rejected only at
rewrite time. -/
theorem C10_empty_set_rules (c : RuleCascade) (i o : FstLike) (n sm : Nat) :
    (set_rules c []).2 = none ∧ (set_rules c []).1.rules = [] ∧
    «matches» (set_rules c []).1 i o = Except.error "No rules requested" ∧
    rewrites (set_rules c []).1 i sm = Except.error "No rules requested" ∧
    top_rewrites (set_rules c []).1 i n = Except.error "No rules requested" ∧
    top_rewrite (set_rules c []).1 i = Except.error "No rules requested" ∧
    one_top_rewrite (set_rules c []).1 i sm = Except.error "No rules requested" ∧
    optimal_rewrites (set_rules c []).1 i sm = Except.error "No rules requested" :=
  ⟨rfl, rfl, rfl, rfl, rfl, rfl, rfl, rfl⟩

/-- Claim C6: matches builds the rewrite lattice for the input,
intersects it with the output acceptor under the sequential composition
filter, and returns true exactly when the resulting automaton has a
reachable start state, which in the extensional model is non-emptiness of
the accepted language. -/
theorem C6_matches_intersection (c : RuleCascade) (i o : FstLike)
    (h : c.rules ≠ []) :
    ∃ lat, _rewrite_lattice c i = Except.ok lat ∧
      «matches» c i o = Except.ok (decide (intersect lat o ≠ [])) ∧
      («matches» c i o = Except.ok true ↔
        ∃ s w w', (s, w) ∈ lat ∧ (s, w') ∈ coerceToFst o) := by
  refine ⟨coerceToFst (latticeLoop i c.rules), ?_, matches_ok c i o h, ?_⟩
  · unfold _rewrite_lattice
    rw [if_neg h]
  · rw [matches_ok c i o h]
    constructor
    · intro ht
      injection ht with hx
      exact (intersect_ne_nil_iff _ _).mp (of_decide_eq_true hx)
    · intro hex
      have hne : intersect (coerceToFst (latticeLoop i c.rules)) o ≠ [] :=
        (intersect_ne_nil_iff _ _).mpr hex
      rw [decide_eq_true hne]

/-- Witness for C6 at a one-rule cascade, matching input [1] against
output [2]. -/
theorem C6_witness :
    ∃ lat, _rewrite_lattice ⟨[], [[([1], [2], 3), ([1], [4], 1)]]⟩
        (Sum.inl [1]) = Except.ok lat ∧
      «matches» ⟨[], [[([1], [2], 3), ([1], [4], 1)]]⟩ (Sum.inl [1])
          (Sum.inl [2]) =
        Except.ok (decide (intersect lat (Sum.inl [2]) ≠ [])) ∧
      («matches» ⟨[], [[([1], [2], 3), ([1], [4], 1)]]⟩ (Sum.inl [1])
            (Sum.inl [2]) = Except.ok true ↔
        ∃ s w w', (s, w) ∈ lat ∧ (s, w') ∈ coerceToFst (Sum.inl [2])) :=
  C6_matches_intersection ⟨[], [[([1], [2], 3), ([1], [4], 1)]]⟩
    (Sum.inl [1]) (Sum.inl [2]) (by decide)

/-- Claim C2: for a configured cascade, matches answers membership in the
rewrites result: matches input output is true exactly when output is
among the strings returned by rewrites input. -/
theorem C2_matches_iff_rewrites (c : RuleCascade) (i : FstLike) (o : Str)
    (sm : Nat) (h : c.rules ≠ []) :
    ∃ l, rewrites c i sm = Except.ok l ∧
      («matches» c i (Sum.inl o) = Except.ok true ↔ o ∈ l) := by
  refine ⟨stringsOf (coerceToFst (latticeLoop i c.rules)), ?_, ?_⟩
  · rw [rewrites_ok c i sm h, rewrites_strings]
  · rw [matches_ok c i (Sum.inl o) h]
    constructor
    · intro ht
      injection ht with hx
      obtain ⟨s, w, w', hsw, hsw'⟩ :=
        (intersect_ne_nil_iff _ _).mp (of_decide_eq_true hx)
      have hso : s = o := by
        have h1 : ((s, w') : Str × Nat) = (o, 0) := List.mem_singleton.mp hsw'
        exact congrArg Prod.fst h1
      rw [mem_stringsOf]
      refine ⟨w, ?_⟩
      rw [← hso]
      exact hsw
    · intro hmem
      obtain ⟨w, hw⟩ := (mem_stringsOf _ o).mp hmem
      have hne : intersect (coerceToFst (latticeLoop i c.rules)) (Sum.inl o) ≠ [] :=
        (intersect_ne_nil_iff _ _).mpr ⟨o, w, 0, hw, List.mem_singleton.mpr rfl⟩
      rw [decide_eq_true hne]

/-- Witness for C2 at a one-rule cascade: output [4] is produced for
input [1], and matches agrees. -/
theorem C2_witness :
    ∃ l, rewrites ⟨[], [[([1], [2], 3), ([1], [4], 1)]]⟩ (Sum.inl [1]) 4 =
        Except.ok l ∧
      («matches» ⟨[], [[([1], [2], 3), ([1], [4], 1)]]⟩ (Sum.inl [1])
          (Sum.inl [4]) = Except.ok true ↔ [4] ∈ l) :=
  C2_matches_iff_rewrites ⟨[], [[([1], [2], 3), ([1], [4], 1)]]⟩
    (Sum.inl [1]) [4] 4 (by decide)

/-- Claim C7: on an input whose lattice has a unique best path,
top_rewrites with count one returns the one-element list holding exactly
the string returned by top_rewrite, namely the output string of the
best path. -/
theorem C7_top_rewrites_one (c : RuleCascade) (i : FstLike) (h : c.rules ≠ [])
    (p : Str × Nat)
    (hp : p ∈ coerceToFst (latticeLoop i c.rules))
    (huniq : ∀ q ∈ coerceToFst (latticeLoop i c.rules), q ≠ p → p.2 < q.2) :
    ∃ t, top_rewrite c i = Except.ok t ∧
      top_rewrites c i 1 = Except.ok [t] ∧ t = p.1 := by
  have hlatne : coerceToFst (latticeLoop i c.rules) ≠ [] := List.ne_nil_of_mem hp
  obtain ⟨h0, hn1, hmem, hmin⟩ := nshortest_one _ hlatne
  have h0p : h0 = p := by
    by_contra hne
    have h1 := huniq h0 hmem hne
    have h2 := hmin p hp
    omega
  refine ⟨h0.1, ?_, ?_, by rw [h0p]⟩
  · rw [top_rewrite_ok c i h]
    unfold lattice_to_top_string
    rw [hn1]
  · rw [top_rewrites_ok c i 1 h]
    unfold lattice_to_strings
    rw [hn1]
    rfl

/-- Witness for C7: the lattice for input [1] is
[([2], 3), ([4], 1)], whose unique best path outputs [4]. -/
theorem C7_witness :
    ∃ t, top_rewrite ⟨[], [[([1], [2], 3), ([1], [4], 1)]]⟩ (Sum.inl [1]) =
        Except.ok t ∧
      top_rewrites ⟨[], [[([1], [2], 3), ([1], [4], 1)]]⟩ (Sum.inl [1]) 1 =
        Except.ok [t] ∧
      t = (([4] : Str), 1).1 :=
  C7_top_rewrites_one ⟨[], [[([1], [2], 3), ([1], [4], 1)]]⟩ (Sum.inl [1])
    (by decide) ([4], 1) (by decide) (by decide)

theorem optimal_core (f : Fst) (sm : Nat) :
    (∀ s, s ∈ lattice_to_strings (lattice_to_dfa f true sm) ↔
      s ∈ stringsOf f ∧ IsMinStr f s) ∧
    ((∀ s ∈ stringsOf f, s ∈ lattice_to_strings (lattice_to_dfa f true sm)) ↔
      ∀ s ∈ stringsOf f, IsMinStr f s) ∧
    ((∃ s ∈ stringsOf f, ¬ IsMinStr f s) →
      (∀ s ∈ lattice_to_strings (lattice_to_dfa f true sm), s ∈ stringsOf f) ∧
      ∃ s ∈ stringsOf f, s ∉ lattice_to_strings (lattice_to_dfa f true sm)) := by
  refine ⟨fun s => mem_opt_strings f sm s, ?_, ?_⟩
  · constructor
    · intro hsub s hs
      exact ((mem_opt_strings f sm s).mp (hsub s hs)).2
    · intro hall s hs
      exact (mem_opt_strings f sm s).mpr ⟨hs, hall s hs⟩
  · rintro ⟨s0, hs0, hbad⟩
    constructor
    · intro s hs
      exact ((mem_opt_strings f sm s).mp hs).1
    · refine ⟨s0, hs0, ?_⟩
      intro hmem
      exact hbad ((mem_opt_strings f sm s0).mp hmem).2

/-- Claim C1 (amended): one_top_rewrite raises the tie error exactly when
two or more distinct output strings share the globally minimal weight in
the rewrite lattice; when the lattice is non-empty and no such tie
exists, it succeeds and returns the same string as top_rewrite.  The
amendment restricts the success half to inputs with a non-empty lattice:
on an empty lattice both operations fail with a non-tie error. -/
theorem C1_one_top_rewrite (c : RuleCascade) (i : FstLike) (sm : Nat)
    (h : c.rules ≠ []) :
    ∃ lat, _rewrite_lattice c i = Except.ok lat ∧
      (one_top_rewrite c i sm = Except.error "Multiple top rewrites found" ↔
        TwoTied lat) ∧
      (lat ≠ [] → ¬ TwoTied lat →
        ∃ t, one_top_rewrite c i sm = Except.ok t ∧
          top_rewrite c i = Except.ok t) := by
  refine ⟨coerceToFst (latticeLoop i c.rules), ?_, ?_, ?_⟩
  · unfold _rewrite_lattice
    rw [if_neg h]
  · rw [one_top_ok c i sm h]
    exact one_top_amb_iff _ sm
  · intro hne hnt
    obtain ⟨p, hp⟩ := dfa_true_singleton _ sm hne hnt
    refine ⟨p.1, ?_, ?_⟩
    · rw [one_top_ok c i sm h, hp]
      rfl
    · rw [top_rewrite_ok c i h]
      exact top_eq_of_singleton _ sm p hp hne

/-- Counterexample to Claim C1 as stated: with the single rule mapping
string [1] to [2], the input [5] yields an empty rewrite lattice, so no
two distinct output strings tie at the minimal weight.  The claim then
demands that one_top_rewrite succeed and agree with top_rewrite, but
both operations fail with the empty-lattice error, which is not the
ambiguity error. -/
theorem C1_counterexample :
    one_top_rewrite ⟨[("r", [([1], [2], 0)])], [[([1], [2], 0)]]⟩
        (Sum.inl [5]) 4 = Except.error "Empty lattice" ∧
    ("Empty lattice" : String) ≠ "Multiple top rewrites found" ∧
    top_rewrite ⟨[("r", [([1], [2], 0)])], [[([1], [2], 0)]]⟩
        (Sum.inl [5]) = Except.error "Empty lattice" :=
  ⟨rfl, by decide, rfl⟩

/-- Witness for C1 at a one-rule cascade whose lattice for input [1] is
non-empty with a unique minimal-weight string. -/
theorem C1_witness :
    ∃ lat, _rewrite_lattice ⟨[], [[([1], [2], 3), ([1], [4], 1)]]⟩
        (Sum.inl [1]) = Except.ok lat ∧
      (one_top_rewrite ⟨[], [[([1], [2], 3), ([1], [4], 1)]]⟩ (Sum.inl [1]) 4 =
          Except.error "Multiple top rewrites found" ↔ TwoTied lat) ∧
      (lat ≠ [] → ¬ TwoTied lat →
        ∃ t, one_top_rewrite ⟨[], [[([1], [2], 3), ([1], [4], 1)]]⟩
            (Sum.inl [1]) 4 = Except.ok t ∧
          top_rewrite ⟨[], [[([1], [2], 3), ([1], [4], 1)]]⟩ (Sum.inl [1]) =
            Except.ok t) :=
  C1_one_top_rewrite ⟨[], [[([1], [2], 3), ([1], [4], 1)]]⟩ (Sum.inl [1]) 4
    (by decide)

/-- Claim C8: for a non-empty rule list and an input accepted by the
first rule, optimal_rewrites returns exactly the output strings tied at
the minimal weight of the lattice; hence the strings of rewrites all lie
in optimal_rewrites precisely when they all share the minimal weight,
and otherwise optimal_rewrites is a strict subset of the strings of
rewrites. -/
theorem C8_optimal_rewrites (c : RuleCascade) (i : FstLike) (sm : Nat)
    (h : c.rules ≠ [])
    (hacc : ∃ r rs, c.rules = r :: rs ∧ rewrite_lattice i r ≠ []) :
    ∃ rws opts, rewrites c i sm = Except.ok rws ∧
      optimal_rewrites c i sm = Except.ok opts ∧
      (∀ s, s ∈ opts ↔ s ∈ stringsOf (coerceToFst (latticeLoop i c.rules)) ∧
        IsMinStr (coerceToFst (latticeLoop i c.rules)) s) ∧
      ((∀ s ∈ rws, s ∈ opts) ↔
        ∀ s ∈ rws, IsMinStr (coerceToFst (latticeLoop i c.rules)) s) ∧
      ((∃ s ∈ rws, ¬ IsMinStr (coerceToFst (latticeLoop i c.rules)) s) →
        (∀ s ∈ opts, s ∈ rws) ∧ ∃ s ∈ rws, s ∉ opts) := by
  obtain ⟨hmem, hsub, hstrict⟩ := optimal_core (coerceToFst (latticeLoop i c.rules)) sm
  refine ⟨stringsOf (coerceToFst (latticeLoop i c.rules)),
    lattice_to_strings
      (lattice_to_dfa (coerceToFst (latticeLoop i c.rules)) true sm),
    ?_, optimal_ok c i sm h, hmem, hsub, hstrict⟩
  rw [rewrites_ok c i sm h, rewrites_strings]

/-- Witness for C8: the lattice for input [1] is [([2], 3), ([4], 1)],
where only [4] carries the minimal weight, so optimal_rewrites is a
strict subset of rewrites. -/
theorem C8_witness :
    ∃ rws opts, rewrites ⟨[], [[([1], [2], 3), ([1], [4], 1)]]⟩
        (Sum.inl [1]) 4 = Except.ok rws ∧
      optimal_rewrites ⟨[], [[([1], [2], 3), ([1], [4], 1)]]⟩
        (Sum.inl [1]) 4 = Except.ok opts ∧
      (∀ s, s ∈ opts ↔ s ∈ stringsOf (coerceToFst (latticeLoop (Sum.inl [1])
          (RuleCascade.rules ⟨[], [[([1], [2], 3), ([1], [4], 1)]]⟩))) ∧
        IsMinStr (coerceToFst (latticeLoop (Sum.inl [1])
          (RuleCascade.rules ⟨[], [[([1], [2], 3), ([1], [4], 1)]]⟩))) s) ∧
      ((∀ s ∈ rws, s ∈ opts) ↔
        ∀ s ∈ rws, IsMinStr (coerceToFst (latticeLoop (Sum.inl [1])
          (RuleCascade.rules ⟨[], [[([1], [2], 3), ([1], [4], 1)]]⟩))) s) ∧
      ((∃ s ∈ rws, ¬ IsMinStr (coerceToFst (latticeLoop (Sum.inl [1])
          (RuleCascade.rules ⟨[], [[([1], [2], 3), ([1], [4], 1)]]⟩))) s) →
        (∀ s ∈ opts, s ∈ rws) ∧ ∃ s ∈ rws, s ∉ opts) :=
  C8_optimal_rewrites ⟨[], [[([1], [2], 3), ([1], [4], 1)]]⟩ (Sum.inl [1]) 4
    (by decide) ⟨[([1], [2], 3), ([1], [4], 1)], [], rfl, by decide⟩
